import Mathlib

/-!
# Verification of the AskMyNotes retrieval-and-grounding core

Shallow embedding of the core logic of the AskMyNotes backend:

* `rag_engine.py` — paragraph/page-aware chunking with line provenance,
  subject-filtered retrieval, the similarity gate and "not found" sentinel,
  confidence tiers, the post-generation fallback re-check, and the tolerant
  quiz-JSON parsing (`_parse_json_response`);
* `conversation_memory.py` — the bounded, expiring per-session turn store.

External collaborators (the Qdrant/LlamaIndex vector search, the OpenAI
LLM/STT/TTS calls, `json.loads`, the LlamaIndex `SentenceSplitter`) are
modelled abstractly per the specification's capability contracts; each such
definition is marked `Modelled from the spec:` in its doc comment.

Python strings are embedded as `List Char` (or Lean `String` where only
concatenation matters); Python floats (similarity scores, timestamps) are
embedded as `Rat`.
-/

namespace AskMyNotes

/-! ## Python string primitives (`str.strip`, `str.startswith`, `in`, …) -/

/-- Python whitespace characters: tab, newline, vertical tab, form feed,
carriage return, space (the characters `str.strip()` removes). -/
def pySpace (c : Char) : Bool :=
  c.toNat = 32 || c.toNat = 9 || c.toNat = 10 || c.toNat = 11 ||
  c.toNat = 12 || c.toNat = 13

/-- Python `str.lstrip()`. -/
def pyStripL (l : List Char) : List Char := l.dropWhile pySpace

/-- Python `str.rstrip()`. -/
def pyStripR (l : List Char) : List Char := (l.reverse.dropWhile pySpace).reverse

/-- Python `str.strip()`. -/
def pyStrip (l : List Char) : List Char := pyStripL (pyStripR l)

/-- Python `str.startswith(pat)`. -/
def leadsWith : List Char → List Char → Bool
  | [], _ => true
  | _ :: _, [] => false
  | a :: pa, b :: rest => if a = b then leadsWith pa rest else false

/-- Python `str.endswith(pat)`. -/
def trailsWith (pat l : List Char) : Bool := leadsWith pat.reverse l.reverse

/-- Python `"\n" in text`. -/
def hasNewline (l : List Char) : Bool := l.any (fun c => decide (c = '\n'))

/-- Python `text.split("\n", 1)[1]` (everything after the first newline);
only used when a newline is present. -/
def afterFirstNl (l : List Char) : List Char :=
  (l.dropWhile (fun c => decide (c ≠ '\n'))).drop 1

/-- Python `text[:-n]` for `0 < n ≤ len(text)`. -/
def dropLastN (n : Nat) (l : List Char) : List Char := l.take (l.length - n)

/-- The non-whitespace characters of a string, in order. -/
def nonSpace (l : List Char) : List Char := l.filter (fun c => !pySpace c)

theorem dropWhile_self_idem (p : Char → Bool) (l : List Char) :
    List.dropWhile p (List.dropWhile p l) = List.dropWhile p l := by
  induction l with
  | nil => rfl
  | cons a l ih =>
    by_cases h : p a = true
    · simp [List.dropWhile, h, ih]
    · simp [List.dropWhile, h]

theorem pyStripR_idem (l : List Char) : pyStripR (pyStripR l) = pyStripR l := by
  simp [pyStripR, dropWhile_self_idem]

theorem filter_dropWhile (l : List Char) :
    nonSpace (List.dropWhile pySpace l) = nonSpace l := by
  induction l with
  | nil => rfl
  | cons a l ih =>
    by_cases h : pySpace a = true
    · simp [List.dropWhile, h, nonSpace, List.filter]
      simpa [nonSpace] using ih
    · simp [List.dropWhile, h]

theorem nonSpace_reverse (l : List Char) :
    nonSpace l.reverse = (nonSpace l).reverse := by
  simp [nonSpace, List.filter_reverse]

theorem nonSpace_pyStripR (l : List Char) : nonSpace (pyStripR l) = nonSpace l := by
  have h := filter_dropWhile l.reverse
  have h2 : nonSpace (pyStripR l) = (nonSpace (l.reverse.dropWhile pySpace)).reverse := by
    simp [pyStripR, nonSpace_reverse]
  rw [h2, h, nonSpace_reverse, List.reverse_reverse]

theorem nonSpace_pyStrip (l : List Char) : nonSpace (pyStrip l) = nonSpace l := by
  rw [pyStrip, pyStripL, filter_dropWhile, nonSpace_pyStripR]

theorem pyStripL_cons_of_not_space (a : Char) (l : List Char) (h : pySpace a = false) :
    pyStripL (a :: l) = a :: l := by
  simp [pyStripL, List.dropWhile, h]

theorem pyStripR_concat_of_not_space (b : Char) (l : List Char) (h : pySpace b = false) :
    pyStripR (l ++ [b]) = l ++ [b] := by
  simp [pyStripR, List.dropWhile, h]

theorem pyStripR_concat_of_space (b : Char) (l : List Char) (h : pySpace b = true) :
    pyStripR (l ++ [b]) = pyStripR l := by
  simp [pyStripR, List.dropWhile, h]

theorem leadsWith_self_append (p rest : List Char) :
    leadsWith p (p ++ rest) = true := by
  induction p with
  | nil => rfl
  | cons a p ih => simp [leadsWith, ih]

theorem afterFirstNl_append (xs rest : List Char) (h : ∀ c ∈ xs, c ≠ '\n') :
    afterFirstNl (xs ++ '\n' :: rest) = rest := by
  induction xs with
  | nil => simp [afterFirstNl, List.dropWhile]
  | cons a xs ih =>
    have ha : a ≠ '\n' := h a (by simp)
    have : afterFirstNl (xs ++ '\n' :: rest) = rest := ih (fun c hc => h c (by simp [hc]))
    simpa [afterFirstNl, List.dropWhile, ha] using this

/-! ## Quiz-JSON parsing (`RAGEngine._parse_json_response`) -/

/-- The backtick character. -/
def bt : Char := Char.ofNat 96

/-- The markdown code fence `` ``` ``. -/
def fence : List Char := [bt, bt, bt]

/-- Result of the quiz-JSON parse, per `_parse_json_response`: either the
structure parsed by `json.loads` (constructor `ok`), or — on parse failure —
the fallback dict `{"mcqs": [], "short_answer": [], "raw_response": raw}`,
encoded by constructor `fallback` carrying the original raw text. -/
inductive QuizParsed (J : Type) where
  | ok (value : J)
  | fallback (raw : List Char)
deriving DecidableEq

/-- The fence-stripping pipeline of `_parse_json_response`:
`text = raw.strip()`; if it starts with `` ``` ``, drop the first line (or the
first three characters when there is no newline), and if the result ends with
`` ``` ``, drop those three characters and `rstrip`. -/
def stripFences (raw : List Char) : List Char :=
  let text := pyStrip raw
  if leadsWith fence text then
    let text2 := if hasNewline text then afterFirstNl text else text.drop 3
    if trailsWith fence text2 then pyStripR (dropLastN 3 text2) else text2
  else text

/-- `RAGEngine._parse_json_response`, with `json.loads` abstracted as `parse`
(a total function returning `none` where `json.loads` would raise
`JSONDecodeError`). -/
def parseJsonResponse {J : Type} (parse : List Char → Option J) (raw : List Char) :
    QuizParsed J :=
  match parse (stripFences raw) with
  | some j => QuizParsed.ok j
  | none => QuizParsed.fallback raw

/-- A model response wrapped in markdown code fences: a leading `` ``` `` line
(with an optional tag such as `json`) and a trailing `` ``` `` line. -/
def wrapFence (tag inner : List Char) : List Char :=
  (fence ++ tag ++ '\n' :: inner ++ ['\n']) ++ fence

theorem dropLastN_append (l p : List Char) : dropLastN p.length (l ++ p) = l := by
  have h : l.length + p.length - p.length = l.length := by omega
  simp [dropLastN, List.length_append, h]

theorem pySpace_bt : pySpace bt = false := by decide

theorem pyStrip_wrapFence (tag inner : List Char) :
    pyStrip (wrapFence tag inner) = wrapFence tag inner := by
  have h1 : pyStripR (wrapFence tag inner) = wrapFence tag inner := by
    have e : wrapFence tag inner =
        ((fence ++ tag ++ '\n' :: inner ++ ['\n']) ++ [bt, bt]) ++ [bt] := by
      simp [wrapFence, fence]
    rw [e, pyStripR_concat_of_not_space _ _ pySpace_bt]
  rw [pyStrip, h1]
  have e2 : wrapFence tag inner =
      bt :: (bt :: bt :: (tag ++ '\n' :: inner ++ ['\n']) ++ fence) := by
    simp [wrapFence, fence]
  rw [e2, pyStripL_cons_of_not_space _ _ pySpace_bt]

theorem stripFences_wrapFence (tag inner : List Char) (htag : '\n' ∉ tag) :
    stripFences (wrapFence tag inner) = pyStripR inner := by
  have hlead : leadsWith fence (wrapFence tag inner) = true := by
    have e : wrapFence tag inner =
        fence ++ (tag ++ '\n' :: inner ++ ['\n'] ++ fence) := by
      simp [wrapFence]
    rw [e, leadsWith_self_append]
  have hnl : hasNewline (wrapFence tag inner) = true := by
    simp [wrapFence, hasNewline]
  have hafter : afterFirstNl (wrapFence tag inner) = (inner ++ ['\n']) ++ fence := by
    have e : wrapFence tag inner = (fence ++ tag) ++ '\n' :: ((inner ++ ['\n']) ++ fence) := by
      simp [wrapFence]
    rw [e]
    apply afterFirstNl_append
    intro c hc
    rcases List.mem_append.1 hc with hf | ht
    · fin_cases hf <;> decide
    · exact fun hEq => htag (hEq ▸ ht)
  have htrail : trailsWith fence ((inner ++ ['\n']) ++ fence) = true := by
    have e : ((inner ++ ['\n']) ++ fence).reverse =
        fence.reverse ++ ('\n' :: inner.reverse) := by
      simp
    rw [trailsWith, e, leadsWith_self_append]
  have hdrop : dropLastN 3 ((inner ++ ['\n']) ++ fence) = inner ++ ['\n'] := by
    have := dropLastN_append (inner ++ ['\n']) fence
    simpa [fence] using this
  rw [stripFences]
  rw [pyStrip_wrapFence]
  simp only [hlead, if_true, hnl, hafter, htrail, hdrop]
  rw [pyStripR_concat_of_space _ _ (by decide)]

theorem parse_pyStripR {J : Type} (parse : List Char → Option J)
    (hws : ∀ s, parse (pyStrip s) = parse s) (l : List Char) :
    parse (pyStripR l) = parse l := by
  have h1 : pyStrip (pyStripR l) = pyStrip l := by
    unfold pyStrip
    rw [pyStripR_idem]
  calc parse (pyStripR l) = parse (pyStrip (pyStripR l)) := (hws _).symm
    _ = parse (pyStrip l) := by rw [h1]
    _ = parse l := hws _

/-- C9: the quiz JSON parser never raises: applied to a valid JSON object
wrapped in markdown code fences (a leading `` ``` `` or `` ```json `` line and
a trailing `` ``` `` line) it yields the same structured result as applied to
the unwrapped text, and applied to text whose JSON parse fails it returns
`{mcqs: [], short_answer: [], raw_response: <the original input>}`.
`json.loads` is abstracted as `parse`, assumed insensitive to surrounding
whitespace; "valid JSON object" is captured by `parse inner = some j` together
with the stripped text not itself starting with a code fence. -/
theorem quiz_parse_robust {J : Type} (parse : List Char → Option J)
    (hws : ∀ s, parse (pyStrip s) = parse s) :
    (∀ (tag inner : List Char) (j : J), '\n' ∉ tag →
        leadsWith fence (pyStrip inner) = false → parse inner = some j →
        parseJsonResponse parse (wrapFence tag inner) = QuizParsed.ok j ∧
        parseJsonResponse parse inner = QuizParsed.ok j) ∧
    (∀ raw, parse (stripFences raw) = none →
        parseJsonResponse parse raw = QuizParsed.fallback raw) := by
  constructor
  · intro tag inner j htag hnf hj
    constructor
    · rw [parseJsonResponse, stripFences_wrapFence tag inner htag,
        parse_pyStripR parse hws, hj]
    · rw [parseJsonResponse, stripFences]
      simp only [hnf, Bool.false_eq_true, if_false]
      rw [hws, hj]
  · intro raw hraw
    rw [parseJsonResponse, hraw]

/-- Witness for C9 at a concrete parse function and concrete inputs: the
fenced form of `{}` and the bare form parse identically, and non-JSON garbage
falls back to the raw text. -/
theorem quiz_parse_robust_witness :
    (parseJsonResponse
        (fun s => if nonSpace s = ("\x7b\x7d").toList then some 0 else none)
        (wrapFence (("json").toList) (("\x7b\x7d").toList)) = QuizParsed.ok 0 ∧
      parseJsonResponse
        (fun s => if nonSpace s = ("\x7b\x7d").toList then some 0 else none)
        (("\x7b\x7d").toList) = QuizParsed.ok 0) ∧
    parseJsonResponse
        (fun s => if nonSpace s = ("\x7b\x7d").toList then some 0 else none)
        (("oops").toList) = QuizParsed.fallback (("oops").toList) := by
  have hws : ∀ s, (fun t => if nonSpace t = ("\x7b\x7d").toList then some 0 else none)
      (pyStrip s) = (fun t => if nonSpace t = ("\x7b\x7d").toList then some 0 else none) s := by
    intro s
    simp only [nonSpace_pyStrip]
  refine ⟨(quiz_parse_robust _ hws).1 (("json").toList) (("\x7b\x7d").toList) 0
      (by decide) (by decide) (by decide),
    (quiz_parse_robust _ hws).2 (("oops").toList) (by decide)⟩

/-! ## Conversation memory (`conversation_memory.py`)

Timestamps (`time.time()`) are embedded as `Rat` values passed explicitly at
each operation; the Python dict `self._sessions` is embedded as an association
list with dict-assignment semantics. -/

/-- `MAX_TURNS`: keep the last N user+assistant pairs. -/
def maxTurns : Nat := 10

/-- `SESSION_TTL`: 30 minutes of inactivity, in seconds. -/
def sessionTTL : Rat := 30 * 60

/-- One entry of a session's `history` list: `{"role": ..., "content": ...}`. -/
structure Msg where
  role : String
  content : String
deriving DecidableEq

/-- The `Session` dataclass. -/
structure Session where
  sessionId : String
  subjectId : String
  history : List Msg
  lastActive : Rat
deriving DecidableEq

/-- The `ConversationMemory._sessions` dict. -/
abbrev Store := List (String × Session)

/-- Python `self._sessions.get(sid)`. -/
def storeGet : Store → String → Option Session
  | [], _ => none
  | (k, s) :: rest, sid => if k = sid then some s else storeGet rest sid

/-- Remove every entry keyed `sid` (helper for dict assignment / `pop`). -/
def storeDel : Store → String → Store
  | [], _ => []
  | (k, s) :: rest, sid =>
      if k = sid then storeDel rest sid else (k, s) :: storeDel rest sid

/-- Python `self._sessions[sid] = s` (dict assignment). -/
def storeSet (st : Store) (sid : String) (s : Session) : Store :=
  storeDel st sid ++ [(sid, s)]

/-- `ConversationMemory._gc`: remove every session with
`now - last_active > SESSION_TTL`. -/
def gcStore (now : Rat) : Store → Store
  | [] => []
  | (k, s) :: rest =>
      if sessionTTL < now - s.lastActive then gcStore now rest
      else (k, s) :: gcStore now rest

/-- `ConversationMemory.create_session` (the freshly generated UUID is passed
in as `sid`): runs `_gc`, then stores a new session with empty history. -/
def createSession (st : Store) (sid subj : String) (now : Rat) : Store :=
  storeSet (gcStore now st) sid ⟨sid, subj, [], now⟩

/-- `ConversationMemory.get_history`: returns `([], st)` for an unknown id;
otherwise returns a copy of the history and refreshes `last_active`. -/
def getHistory (st : Store) (sid : String) (now : Rat) : List Msg × Store :=
  match storeGet st sid with
  | none => ([], st)
  | some s => (s.history, storeSet st sid { s with lastActive := now })

/-- The two messages one `add_turn` call appends. -/
def turnPair (userMessage assistantMessage : String) : List Msg :=
  [⟨"user", userMessage⟩, ⟨"assistant", assistantMessage⟩]

/-- The history update performed by `add_turn`: append the user and assistant
messages, then trim to the last `MAX_TURNS * 2` messages when over the cap. -/
def addTurnHist (h : List Msg) (userMessage assistantMessage : String) : List Msg :=
  let h2 := h ++ turnPair userMessage assistantMessage
  if maxTurns * 2 < h2.length then h2.drop (h2.length - maxTurns * 2) else h2

/-- `ConversationMemory.add_turn`: no-op for an unknown id; otherwise appends
the exchange, trims, and refreshes `last_active`. -/
def addTurn (st : Store) (sid userMessage assistantMessage : String) (now : Rat) : Store :=
  match storeGet st sid with
  | none => st
  | some s =>
      storeSet st sid
        { s with history := addTurnHist s.history userMessage assistantMessage,
                 lastActive := now }

/-- `ConversationMemory.get_subject_id`. -/
def getSubjectId (st : Store) (sid : String) : Option String :=
  (storeGet st sid).map (fun s => s.subjectId)

/-- `ConversationMemory.delete_session` (`pop(sid, None)`). -/
def deleteSession (st : Store) (sid : String) : Store := storeDel st sid

/-- The public operations of `ConversationMemory`, as a step alphabet for
reachability reasoning. -/
inductive MemOp where
  | createOp (sid subj : String) (now : Rat)
  | addTurnOp (sid userMessage assistantMessage : String) (now : Rat)
  | getHistOp (sid : String) (now : Rat)
  | getSubjectOp (sid : String)
  | deleteOp (sid : String)

/-- Effect of one operation on the session store. -/
def stepOp (st : Store) : MemOp → Store
  | MemOp.createOp sid subj now => createSession st sid subj now
  | MemOp.addTurnOp sid u a now => addTurn st sid u a now
  | MemOp.getHistOp sid now => (getHistory st sid now).2
  | MemOp.getSubjectOp _ => st
  | MemOp.deleteOp sid => deleteSession st sid

/-- The store reached from the initial empty store by a sequence of operations. -/
def runOps (ops : List MemOp) : Store := ops.foldl stepOp []

/-- Folding a sequence of `add_turn` calls for one session; each triple is
`(user_message, assistant_message, now)`. -/
def runAddTurns (st : Store) (sid : String) (turns : List (String × String × Rat)) : Store :=
  turns.foldl (fun acc t => addTurn acc sid t.1 t.2.1 t.2.2) st

/-- The messages a sequence of `add_turn` calls appends, in order. -/
def turnMsgs : List (String × String × Rat) → List Msg
  | [] => []
  | (u, a, _) :: rest => turnPair u a ++ turnMsgs rest

/-- The last `n` elements of a list (Python `l[-n:]` for `len(l) > n`). -/
def lastN (n : Nat) (l : List Msg) : List Msg := l.drop (l.length - n)

/-! ### Store lemmas -/

theorem storeGet_storeDel (st : Store) (sid : String) :
    storeGet (storeDel st sid) sid = none := by
  induction st with
  | nil => rfl
  | cons p rest ih =>
    obtain ⟨k, s⟩ := p
    by_cases h : k = sid
    · simp [storeDel, h, ih]
    · simp [storeDel, h, storeGet, ih]

theorem storeGet_append_none (a b : Store) (sid : String)
    (h : storeGet a sid = none) : storeGet (a ++ b) sid = storeGet b sid := by
  induction a with
  | nil => rfl
  | cons p rest ih =>
    obtain ⟨k, s⟩ := p
    by_cases hk : k = sid
    · simp [storeGet, hk] at h
    · simp [storeGet, hk] at h ⊢
      exact ih h

theorem storeGet_storeSet (st : Store) (sid : String) (s : Session) :
    storeGet (storeSet st sid s) sid = some s := by
  rw [storeSet, storeGet_append_none _ _ _ (storeGet_storeDel st sid)]
  simp [storeGet]

theorem mem_storeDel {p : String × Session} {st : Store} {sid : String}
    (h : p ∈ storeDel st sid) : p ∈ st := by
  induction st with
  | nil => simp [storeDel] at h
  | cons q rest ih =>
    obtain ⟨k, s⟩ := q
    by_cases hk : k = sid
    · simp only [storeDel, hk, if_true] at h
      exact List.mem_cons_of_mem _ (ih h)
    · simp only [storeDel, hk, if_false] at h
      rcases List.mem_cons.1 h with h1 | h1
      · exact h1 ▸ List.mem_cons_self _ _
      · exact List.mem_cons_of_mem _ (ih h1)

theorem mem_storeSet {p : String × Session} {st : Store} {sid : String} {s : Session}
    (h : p ∈ storeSet st sid s) : p ∈ st ∨ p = (sid, s) := by
  rcases List.mem_append.1 h with h1 | h1
  · exact Or.inl (mem_storeDel h1)
  · simp at h1
    exact Or.inr h1

theorem mem_gcStore {p : String × Session} {st : Store} {now : Rat}
    (h : p ∈ gcStore now st) : p ∈ st := by
  induction st with
  | nil => simp [gcStore] at h
  | cons q rest ih =>
    obtain ⟨k, s⟩ := q
    by_cases hk : sessionTTL < now - s.lastActive
    · simp only [gcStore, hk, if_true] at h
      exact List.mem_cons_of_mem _ (ih h)
    · simp only [gcStore, hk, if_false] at h
      rcases List.mem_cons.1 h with h1 | h1
      · exact h1 ▸ List.mem_cons_self _ _
      · exact List.mem_cons_of_mem _ (ih h1)

theorem storeGet_mem {st : Store} {sid : String} {s : Session}
    (h : storeGet st sid = some s) : (sid, s) ∈ st := by
  induction st with
  | nil => simp [storeGet] at h
  | cons p rest ih =>
    obtain ⟨k, s'⟩ := p
    by_cases hk : k = sid
    · subst hk
      simp [storeGet] at h
      subst h
      exact List.mem_cons_self _ _
    · simp [storeGet, hk] at h
      exact List.mem_cons_of_mem _ (ih h)

theorem storeGet_none_of_forall {st : Store} {sid : String}
    (h : ∀ q ∈ st, q.1 ≠ sid) : storeGet st sid = none := by
  induction st with
  | nil => rfl
  | cons p rest ih =>
    obtain ⟨k, s⟩ := p
    have hk : k ≠ sid := h (k, s) (List.mem_cons_self _ _)
    simp only [storeGet, hk, if_false]
    exact ih (fun q hq => h q (List.mem_cons_of_mem _ hq))

/-! ### `lastN` lemmas -/

theorem lastN_of_le (n : Nat) (l : List Msg) (h : l.length ≤ n) : lastN n l = l := by
  simp [lastN, Nat.sub_eq_zero_of_le h]

theorem drop_append_add (v w : List Msg) (i : Nat) :
    (v ++ w).drop (v.length + i) = w.drop i := by
  induction v with
  | nil => simp
  | cons x v ih =>
    have e : (x :: v).length + i = (v.length + i) + 1 := by
      simp [List.length_cons]
      omega
    rw [List.cons_append, e, List.drop_succ_cons, ih]

theorem lastN_append_right (n : Nat) (v w : List Msg) (h : n ≤ w.length) :
    lastN n (v ++ w) = lastN n w := by
  rw [lastN, lastN, List.length_append]
  have e : v.length + w.length - n = v.length + (w.length - n) := by omega
  rw [e, drop_append_add]

/-- Core trimming step: applied to the last `2*MAX_TURNS` messages of any
message sequence `m`, one `add_turn` update yields the last `2*MAX_TURNS`
messages of `m` extended by the new pair. -/
theorem addTurnHist_lastN (m : List Msg) (u a : String) :
    addTurnHist (lastN (maxTurns * 2) m) u a =
      lastN (maxTurns * 2) (m ++ turnPair u a) := by
  by_cases hle : m.length ≤ maxTurns * 2
  · rw [lastN_of_le _ m hle, addTurnHist]
    by_cases h2 : maxTurns * 2 < (m ++ turnPair u a).length
    · simp only [h2, if_true]
      rfl
    · simp only [h2, if_false]
      rw [lastN_of_le]
      omega
  · have hlen : (lastN (maxTurns * 2) m).length = maxTurns * 2 := by
      simp [lastN]
      omega
    rw [addTurnHist]
    have hgt : maxTurns * 2 < (lastN (maxTurns * 2) m ++ turnPair u a).length := by
      simp [hlen, turnPair]
    simp only [hgt, if_true]
    have lhs_eq : (lastN (maxTurns * 2) m ++ turnPair u a).drop
        ((lastN (maxTurns * 2) m ++ turnPair u a).length - maxTurns * 2)
        = lastN (maxTurns * 2) (lastN (maxTurns * 2) m ++ turnPair u a) := rfl
    rw [lhs_eq]
    have hw : maxTurns * 2 ≤
        (List.drop (m.length - maxTurns * 2) m ++ turnPair u a).length := by
      simp [turnPair]
      omega
    calc lastN (maxTurns * 2) (lastN (maxTurns * 2) m ++ turnPair u a)
        = lastN (maxTurns * 2)
            (List.drop (m.length - maxTurns * 2) m ++ turnPair u a) := rfl
      _ = lastN (maxTurns * 2) (List.take (m.length - maxTurns * 2) m ++
            (List.drop (m.length - maxTurns * 2) m ++ turnPair u a)) :=
          (lastN_append_right _ _ _ hw).symm
      _ = lastN (maxTurns * 2) (m ++ turnPair u a) := by
          rw [← List.append_assoc, List.take_append_drop]

/-! ### Alternation invariant -/

/-- A history made of complete user/assistant exchanges: even length, entry
`2k` has role `"user"`, entry `2k+1` has role `"assistant"`. -/
inductive PairedHist : List Msg → Prop where
  | nil : PairedHist []
  | cons (u a : String) (h : List Msg) (hh : PairedHist h) :
      PairedHist (⟨"user", u⟩ :: ⟨"assistant", a⟩ :: h)

theorem PairedHist.append_pair {h : List Msg} (hh : PairedHist h) (u a : String) :
    PairedHist (h ++ turnPair u a) := by
  induction hh with
  | nil => simpa [turnPair] using PairedHist.cons u a [] PairedHist.nil
  | cons u' a' h' hh' ih => simpa using PairedHist.cons u' a' _ ih

theorem PairedHist.drop_two {l : List Msg} (hh : PairedHist l) :
    PairedHist (l.drop 2) := by
  cases hh with
  | nil => exact PairedHist.nil
  | cons u a t ht => simpa using ht

theorem PairedHist.length_even {h : List Msg} (hh : PairedHist h) :
    h.length % 2 = 0 := by
  induction hh with
  | nil => rfl
  | cons u a t ht ih =>
    simp only [List.length_cons]
    omega

theorem PairedHist.alternating {h : List Msg} (hh : PairedHist h) :
    ∀ i (hi : i < h.length),
      (h.get ⟨i, hi⟩).role = if i % 2 = 0 then "user" else "assistant" := by
  induction hh with
  | nil =>
    intro i hi
    simp at hi
  | cons u a t ht ih =>
    intro i hi
    match i with
    | 0 => rfl
    | 1 => rfl
    | (k + 2) =>
      have hk : k < t.length := by
        simp only [List.length_cons] at hi
        omega
      have e : (⟨"user", u⟩ :: ⟨"assistant", a⟩ :: t).get ⟨k + 2, hi⟩ = t.get ⟨k, hk⟩ := rfl
      rw [e, ih k hk]
      have : (k + 2) % 2 = k % 2 := by omega
      rw [this]

/-- Invariant of a single stored session: paired history within the cap. -/
def GoodSession (s : Session) : Prop :=
  PairedHist s.history ∧ s.history.length ≤ maxTurns * 2

/-- Invariant of the whole session store. -/
def InvStore (st : Store) : Prop := ∀ p ∈ st, GoodSession p.2

theorem addTurnHist_good {h : List Msg} (hp : PairedHist h)
    (hlen : h.length ≤ maxTurns * 2) (u a : String) :
    PairedHist (addTurnHist h u a) ∧ (addTurnHist h u a).length ≤ maxTurns * 2 := by
  have hp2 : PairedHist (h ++ turnPair u a) := hp.append_pair u a
  rw [addTurnHist]
  by_cases hlt : maxTurns * 2 < (h ++ turnPair u a).length
  · simp only [hlt, if_true]
    have he := hp.length_even
    have hdrop : (h ++ turnPair u a).length - maxTurns * 2 = 2 := by
      have hl2 : (h ++ turnPair u a).length = h.length + 2 := by
        simp [turnPair]
      rw [hl2] at hlt ⊢
      simp only [maxTurns] at hlt hlen ⊢
      omega
    rw [hdrop]
    refine ⟨hp2.drop_two, ?_⟩
    simp only [List.length_drop, List.length_append, turnPair, List.length_cons,
      List.length_nil]
    omega
  · simp only [hlt, if_false]
    exact ⟨hp2, Nat.not_lt.mp hlt⟩

theorem invStore_step {st : Store} (h : InvStore st) (op : MemOp) :
    InvStore (stepOp st op) := by
  cases op with
  | createOp sid subj now =>
    intro p hp
    rcases mem_storeSet hp with h1 | h1
    · exact h p (mem_gcStore h1)
    · subst h1
      exact ⟨PairedHist.nil, by simp [maxTurns]⟩
  | addTurnOp sid u a now =>
    intro p hp
    simp only [stepOp, addTurn] at hp
    cases hg : storeGet st sid with
    | none =>
      rw [hg] at hp
      exact h p hp
    | some s =>
      rw [hg] at hp
      rcases mem_storeSet hp with h1 | h1
      · exact h p h1
      · subst h1
        have hs := h (sid, s) (storeGet_mem hg)
        exact addTurnHist_good hs.1 hs.2 u a
  | getHistOp sid now =>
    intro p hp
    simp only [stepOp, getHistory] at hp
    cases hg : storeGet st sid with
    | none =>
      rw [hg] at hp
      exact h p hp
    | some s =>
      rw [hg] at hp
      rcases mem_storeSet hp with h1 | h1
      · exact h p h1
      · subst h1
        exact h (sid, s) (storeGet_mem hg)
  | getSubjectOp sid =>
    intro p hp
    exact h p hp
  | deleteOp sid =>
    intro p hp
    exact h p (mem_storeDel hp)

/-- Every store reachable from the empty store satisfies the session
invariant. -/
theorem runOps_inv (ops : List MemOp) : InvStore (runOps ops) := by
  rw [runOps]
  have key : ∀ st, InvStore st → InvStore (ops.foldl stepOp st) := by
    induction ops with
    | nil => exact fun st h => h
    | cons op ops ih => exact fun st h => ih _ (invStore_step h op)
  exact key [] (by intro p hp; simp at hp)

/-- Folding `add_turn` over a session present in the store: its history is
always the last `2*MAX_TURNS` of the full message sequence. -/
theorem runAddTurns_get (sid : String) (turns : List (String × String × Rat)) :
    ∀ (st : Store) (s : Session) (m : List Msg),
      storeGet st sid = some s → s.history = lastN (maxTurns * 2) m →
      ∃ la, storeGet (runAddTurns st sid turns) sid =
        some ⟨s.sessionId, s.subjectId, lastN (maxTurns * 2) (m ++ turnMsgs turns), la⟩ := by
  induction turns with
  | nil =>
    intro st s m hget hh
    refine ⟨s.lastActive, ?_⟩
    rw [runAddTurns, List.foldl_nil, hget]
    cases s
    simp only [turnMsgs, List.append_nil]
    simp only at hh
    rw [hh]
  | cons t rest ih =>
    obtain ⟨u, a, tm⟩ := t
    intro st s m hget hh
    have hstep : runAddTurns st sid ((u, a, tm) :: rest)
        = runAddTurns (addTurn st sid u a tm) sid rest := rfl
    rw [hstep]
    have haddt : addTurn st sid u a tm = storeSet st sid
        { s with history := addTurnHist s.history u a, lastActive := tm } := by
      rw [addTurn, hget]
    have hget2 : storeGet (addTurn st sid u a tm) sid =
        some { s with history := addTurnHist s.history u a, lastActive := tm } := by
      rw [haddt, storeGet_storeSet]
    have hh2 : addTurnHist s.history u a
        = lastN (maxTurns * 2) (m ++ turnPair u a) := by
      rw [hh, addTurnHist_lastN]
    obtain ⟨la, hla⟩ := ih _ _ _ hget2 hh2
    refine ⟨la, ?_⟩
    rw [hla]
    simp only [turnMsgs, List.append_assoc]

theorem turnMsgs_length (turns : List (String × String × Rat)) :
    (turnMsgs turns).length = 2 * turns.length := by
  induction turns with
  | nil => rfl
  | cons t rest ih =>
    obtain ⟨u, a, tm⟩ := t
    simp [turnMsgs, turnPair, ih]
    omega

/-- C6: for every session created fresh, after any sequence of N calls to
`add_turn` with N > MAX_TURNS, `get_history` returns exactly the most recent
`2*MAX_TURNS = 20` messages of the appended message sequence, in their
original relative order; moreover the stored history length never exceeds
`2*MAX_TURNS` in any reachable store. -/
theorem add_turn_trimming (st : Store) (sid subj : String) (t0 tq : Rat)
    (turns : List (String × String × Rat)) (h : maxTurns < turns.length) :
    (getHistory (runAddTurns (createSession st sid subj t0) sid turns) sid tq).1
        = lastN (maxTurns * 2) (turnMsgs turns) ∧
    (lastN (maxTurns * 2) (turnMsgs turns)).length = maxTurns * 2 ∧
    (∀ ops : List MemOp, ∀ p ∈ runOps ops, p.2.history.length ≤ maxTurns * 2) := by
  refine ⟨?_, ?_, fun ops p hp => (runOps_inv ops p hp).2⟩
  · have hget : storeGet (createSession st sid subj t0) sid
        = some ⟨sid, subj, [], t0⟩ := storeGet_storeSet _ _ _
    have hh : (⟨sid, subj, [], t0⟩ : Session).history = lastN (maxTurns * 2) [] := by
      simp [lastN]
    obtain ⟨la, hla⟩ := runAddTurns_get sid turns _ _ [] hget hh
    rw [getHistory, hla]
    simp
  · rw [lastN, List.length_drop, turnMsgs_length]
    have : maxTurns * 2 ≤ 2 * turns.length := by omega
    omega

/-- Witness data for C6: eleven `add_turn` calls (22 messages). -/
def demoTurns : List (String × String × Rat) :=
  [(("u1"), ("a1"), 1), (("u2"), ("a2"), 2), (("u3"), ("a3"), 3),
   (("u4"), ("a4"), 4), (("u5"), ("a5"), 5), (("u6"), ("a6"), 6),
   (("u7"), ("a7"), 7), (("u8"), ("a8"), 8), (("u9"), ("a9"), 9),
   (("u10"), ("a10"), 10), (("u11"), ("a11"), 11)]

/-- Witness for C6 at a concrete run: a fresh session, 11 turns. -/
theorem add_turn_trimming_witness :
    (getHistory (runAddTurns (createSession [] ("s") ("math") 0) ("s") demoTurns)
        ("s") 99).1 = lastN (maxTurns * 2) (turnMsgs demoTurns) ∧
    (lastN (maxTurns * 2) (turnMsgs demoTurns)).length = maxTurns * 2 :=
  ⟨(add_turn_trimming [] ("s") ("math") 0 99 demoTurns (by decide)).1,
   (add_turn_trimming [] ("s") ("math") 0 99 demoTurns (by decide)).2.1⟩

/-- C10: in every reachable `ConversationMemory` store, every session's
history has even length and strictly alternates roles, entry `2k` being
`"user"` and entry `2k+1` being `"assistant"`; every operation preserves
this. -/
theorem history_alternation (ops : List MemOp) :
    ∀ p ∈ runOps ops, p.2.history.length % 2 = 0 ∧
      ∀ i (hi : i < p.2.history.length),
        (p.2.history.get ⟨i, hi⟩).role = if i % 2 = 0 then "user" else "assistant" := by
  intro p hp
  have hg := runOps_inv ops p hp
  exact ⟨hg.1.length_even, hg.1.alternating⟩

/-- Witness for C10 at a concrete reachable store. -/
theorem history_alternation_witness :
    ((("s"), (⟨("s"), ("math"),
        [⟨("user"), ("hi")⟩, ⟨("assistant"), ("hello")⟩], 1⟩ : Session)) :
          String × Session).2.history.length % 2 = 0 ∧
      ∀ i (hi : i < ((("s"), (⟨("s"), ("math"),
          [⟨("user"), ("hi")⟩, ⟨("assistant"), ("hello")⟩], 1⟩ : Session)) :
            String × Session).2.history.length),
        (((("s"), (⟨("s"), ("math"),
            [⟨("user"), ("hi")⟩, ⟨("assistant"), ("hello")⟩], 1⟩ : Session)) :
              String × Session).2.history.get ⟨i, hi⟩).role =
          if i % 2 = 0 then "user" else "assistant" :=
  history_alternation
    [MemOp.createOp ("s") ("math") 0, MemOp.addTurnOp ("s") ("hi") ("hello") 1]
    _ (List.mem_singleton.mpr rfl)

/-! ### Session expiry (claim C7) -/

theorem storeGet_gcStore_expired {st : Store} {sid : String} {s : Session} {now : Rat}
    (hnd : (st.map Prod.fst).Nodup) (hget : storeGet st sid = some s)
    (hexp : sessionTTL < now - s.lastActive) :
    storeGet (gcStore now st) sid = none := by
  induction st with
  | nil => simp [storeGet] at hget
  | cons p rest ih =>
    obtain ⟨k, s'⟩ := p
    simp only [List.map_cons, List.nodup_cons] at hnd
    by_cases hk : k = sid
    · subst hk
      simp only [storeGet, if_true] at hget
      rw [Option.some_inj] at hget
      subst hget
      rw [gcStore]
      simp only [hexp, if_true]
      apply storeGet_none_of_forall
      intro q hq hEq
      exact hnd.1 (hEq ▸ List.mem_map_of_mem Prod.fst (mem_gcStore hq))
    · simp only [storeGet, hk, if_false] at hget
      rw [gcStore]
      by_cases hgc : sessionTTL < now - s'.lastActive
      · simp only [hgc, if_true]
        exact ih hnd.2 hget
      · simp only [hgc, if_false, storeGet, hk, if_false]
        exact ih hnd.2 hget

/-- C7 counterexample: a session whose `last_active` is older than
`SESSION_TTL` relative to `now` but which has not been garbage-collected is
still returned in full by `get_history` — the claim that expiry alone makes
`get_history` return the empty list is false on the code. -/
theorem get_history_expired_cex :
    sessionTTL < (1801 : Rat) - (0 : Rat) ∧
    (getHistory
        [(("s"), (⟨("s"), ("math"),
            [⟨("user"), ("q")⟩, ⟨("assistant"), ("r")⟩], 0⟩ : Session))]
        ("s") 1801).1
      = [⟨("user"), ("q")⟩, ⟨("assistant"), ("r")⟩] := by
  constructor
  · norm_num [sessionTTL]
  · rfl

/-- C7 (amended): `get_history` returns `[]` exactly for ids absent from the
store — it performs no expiry check of its own; for a present session (stale
or not) it returns the ordered history and refreshes `last_active`. Expired
sessions disappear only through garbage collection (run by `create_session`):
after a `_gc` pass at time `now`, a session expired relative to `now` is
gone, so a subsequent `get_history` returns `[]` (stated for stores with
distinct keys, the only kind the class constructs). -/
theorem get_history_expiry (st : Store) (sid : String) (now now2 : Rat) :
    (storeGet st sid = none → (getHistory st sid now).1 = []) ∧
    (∀ s, storeGet st sid = some s →
        (getHistory st sid now).1 = s.history ∧
        storeGet (getHistory st sid now).2 sid = some { s with lastActive := now }) ∧
    (∀ s, (st.map Prod.fst).Nodup → storeGet st sid = some s →
        sessionTTL < now - s.lastActive →
        (getHistory (gcStore now st) sid now2).1 = []) := by
  refine ⟨?_, ?_, ?_⟩
  · intro hnone
    rw [getHistory, hnone]
  · intro s hsome
    rw [getHistory, hsome]
    exact ⟨rfl, storeGet_storeSet _ _ _⟩
  · intro s hnd hsome hexp
    rw [getHistory, storeGet_gcStore_expired hnd hsome hexp]

/-- Witness for C7 (amended) at a concrete store: after garbage collection at
a time past the TTL, the expired session's history is gone. -/
theorem get_history_expiry_witness :
    (getHistory
        (gcStore 1801
          [(("s"), (⟨("s"), ("math"),
              [⟨("user"), ("q2")⟩, ⟨("assistant"), ("r2")⟩], 0⟩ : Session))])
        ("s") 1802).1 = [] :=
  (get_history_expiry
      [(("s"), (⟨("s"), ("math"),
          [⟨("user"), ("q2")⟩, ⟨("assistant"), ("r2")⟩], 0⟩ : Session))]
      ("s") 1801 1802).2.2
    ⟨("s"), ("math"), [⟨("user"), ("q2")⟩, ⟨("assistant"), ("r2")⟩], 0⟩
    (by decide) (by decide) (by norm_num [sessionTTL])

/-! ## Subject-scoped RAG chat (`RAGEngine.chat`)

The OpenAI embedding model and the Qdrant similarity search are external
services; retrieval is therefore modelled on a list of stored points that
already carry the similarity scores they would receive for the query at
hand, per the spec's Vector Index Adapter contract. The chat LLM is an
opaque function from the composed messages to the answer text. -/

/-- `SIMILARITY_THRESHOLD = 0.15`. -/
def similarityThreshold : Rat := 15 / 100

/-- A retrieved node: chunk text, provenance metadata, and the similarity
score assigned by the vector search (`None` when Qdrant returns no score). -/
structure RetrievedNode where
  text : String
  fileName : String
  pageNumber : Nat
  lineStart : Nat
  lineEnd : Nat
  subjectId : String
  score : Option Rat
deriving DecidableEq

/-- Sort key used by the modelled search: the node's score, 0 when absent. -/
def scoreVal (n : RetrievedNode) : Rat := n.score.getD 0

/-- Insert a node into a descending-score-sorted list (stable). -/
def insertByScore (n : RetrievedNode) : List RetrievedNode → List RetrievedNode
  | [] => [n]
  | m :: rest =>
      if scoreVal n ≤ scoreVal m then m :: insertByScore n rest
      else n :: m :: rest

/-- Sort a candidate list by descending score. -/
def sortByScore (l : List RetrievedNode) : List RetrievedNode :=
  l.foldr insertByScore []

/-- Modelled from the spec: the Vector Index Adapter's metadata-filtered
similarity search
(`search(query_embedding, subject_id, top_k) -> ordered list of
RetrievedCandidate` sorted by descending score, filtered to `subject_id`
exactly) — the Qdrant/LlamaIndex retriever invoked by `chat`/`voice_chat` via
`index.as_retriever(similarity_top_k=…, filters=MetadataFilters(subject_id ==
…))`, which is external to this repository. `store` is the collection's
stored points carrying the scores they receive for the query at hand. -/
def searchIndex (store : List RetrievedNode) (subjectId : String) (topK : Nat) :
    List RetrievedNode :=
  (sortByScore (store.filter (fun n => decide (n.subjectId = subjectId)))).take topK

/-- The similarity gate predicate of `chat`:
`n.score is not None and n.score >= threshold`. -/
def passesGate (threshold : Rat) (n : RetrievedNode) : Bool :=
  match n.score with
  | some s => decide (threshold ≤ s)
  | none => false

/-- The gate filter (`valid_nodes = [n for n in retrieved if ...]`),
parameterised by the threshold. -/
def gateValid (threshold : Rat) (cands : List RetrievedNode) : List RetrievedNode :=
  cands.filter (passesGate threshold)

/-- The candidates `chat` retrieves: top-8 subject-filtered search. -/
def chatRetrieved (store : List RetrievedNode) (subjectId : String) :
    List RetrievedNode :=
  searchIndex store subjectId 8

/-- The candidates `chat` retains after the similarity gate. -/
def chatValid (store : List RetrievedNode) (subjectId : String) :
    List RetrievedNode :=
  gateValid similarityThreshold (chatRetrieved store subjectId)

/-- The sentinel answer `f"Not found in your notes for {subject_id}"`. -/
def notFoundPhrase (subjectId : String) : String :=
  "Not found in your notes for " ++ subjectId

/-- A message passed to the chat LLM. -/
structure ChatMsg where
  role : String
  content : String
deriving DecidableEq

/-- A response-facing citation (`citations.append({...})` in `chat`). -/
structure Citation where
  fileName : String
  pageNumber : Nat
  lineStart : Nat
  lineEnd : Nat
  subjectId : String
  relevanceScore : Rat
  chunkText : String
deriving DecidableEq

/-- The value returned by `chat`. -/
structure ChatResult where
  answer : String
  citations : List Citation
  confidence : String
deriving DecidableEq

/-- Python `round(x, 4)` on a similarity score (embedded as half-up rounding
on rationals; the claims do not depend on the tie-breaking rule). -/
def round4 (q : Rat) : Rat := ((round (q * 10000) : Int) : Rat) / 10000

/-- The citation snippet: first 200 characters, newlines replaced by spaces,
stripped, ellipsized when the chunk text is longer than 200 characters. -/
def snippet (text : String) : String :=
  let s := String.mk (pyStrip ((text.toList.take 200).map
    (fun c => if c = '\n' then ' ' else c)))
  if 200 < text.toList.length then s ++ ("…") else s

/-- One citation dict built by `chat` for a retained node; note
`"subject_id": subject_id` uses the query's subject, not the node's. -/
def mkCitation (subjectId : String) (n : RetrievedNode) : Citation :=
  { fileName := n.fileName, pageNumber := n.pageNumber, lineStart := n.lineStart,
    lineEnd := n.lineEnd, subjectId := subjectId,
    relevanceScore := match n.score with | some s => round4 s | none => 0,
    chunkText := snippet n.text }

/-- The citation label `[fn, Page pg, Lines ls-le]`. -/
def citationLabel (n : RetrievedNode) : String :=
  "[" ++ n.fileName ++ ", Page " ++ toString n.pageNumber ++ ", Lines "
    ++ toString n.lineStart ++ "-" ++ toString n.lineEnd ++ "]"

/-- One context block `--- Source: label ---\n<chunk text>`. -/
def contextBlock (n : RetrievedNode) : String :=
  "--- Source: " ++ citationLabel n ++ " ---\n" ++ n.text

/-- The concatenated context (`"\n\n".join(context_parts)`). -/
def chatContext (valid : List RetrievedNode) : String :=
  String.intercalate ("\n\n") (valid.map contextBlock)

/-- The role-labelled history block built from the last 6 history messages. -/
def historyBlock (history : List Msg) : String :=
  (history.drop (history.length - 6)).foldl
    (fun acc m => acc ++ "\n" ++ m.role.toUpper ++ ": " ++ m.content) ""

/-- The system prompt of `chat`. -/
def chatSystemPrompt (subjectId context : String) : String :=
  "You are a Study Copilot for the subject \"" ++ subjectId ++ "\". "
    ++ "You answer questions STRICTLY based on the provided context from the "
    ++ "user\x27s uploaded notes.\n\n"
    ++ "RULES:\n"
    ++ "1. ONLY use information from the CONTEXT below. Do NOT use outside "
    ++ "knowledge.\n"
    ++ "2. If the context does not contain enough information to answer, "
    ++ "respond EXACTLY with: \"Not found in your notes for " ++ subjectId
    ++ "\"\n"
    ++ "3. Include inline citations in the format [File Name, Page X].\n"
    ++ "4. Be precise, clear, and helpful.\n"
    ++ "5. If the question is ambiguous, interpret it within the subject "
    ++ "matter.\n\n"
    ++ "CONTEXT FROM NOTES:\n" ++ context

/-- The message list `chat` sends to the LLM. -/
def chatMessages (store : List RetrievedNode) (subjectId query : String)
    (history : List Msg) : List ChatMsg :=
  let hb := if history.isEmpty then "" else historyBlock history
  [⟨"system", chatSystemPrompt subjectId (chatContext (chatValid store subjectId))⟩]
    ++ (if hb = "" then []
        else [⟨"user", "Previous conversation:" ++ hb⟩])
    ++ [⟨"user", query⟩]

/-- Case-insensitive substring test (Python `needle.lower() in hay.lower()`). -/
def hasSub (needle : List Char) : List Char → Bool
  | [] => needle.isEmpty
  | c :: rest => leadsWith needle (c :: rest) || hasSub needle rest

/-- `not_found_phrase.lower() in answer.lower()`. -/
def containsCI (needle hay : String) : Bool :=
  hasSub (needle.toList.map Char.toLower) (hay.toList.map Char.toLower)

/-- The confidence tier computed from the average retained score. -/
def confidenceTier (avg : Rat) : String :=
  if 3 / 4 ≤ avg then "High" else if 2 / 5 ≤ avg then "Medium" else "Low"

/-- `avg_score = sum(n.score for n in valid_nodes) / len(valid_nodes)`. -/
def avgScore (valid : List RetrievedNode) : Rat :=
  (valid.map scoreVal).sum / (valid.length : Rat)

/-- `RAGEngine.chat`: retrieval, similarity gate with "not found"
short-circuit, context/citation construction, LLM call (`llm`), the
case-insensitive fallback re-check, and confidence scoring. -/
def chat (llm : List ChatMsg → String) (store : List RetrievedNode)
    (query subjectId : String) (history : List Msg) : ChatResult :=
  if (chatValid store subjectId).isEmpty then
    { answer := notFoundPhrase subjectId, citations := [], confidence := "Low" }
  else if containsCI (notFoundPhrase subjectId)
      (llm (chatMessages store subjectId query history)) then
    { answer := notFoundPhrase subjectId, citations := [], confidence := "Low" }
  else
    { answer := llm (chatMessages store subjectId query history),
      citations := (chatValid store subjectId).map (mkCitation subjectId),
      confidence := confidenceTier (avgScore (chatValid store subjectId)) }

/-! ### Claims about the chat pipeline -/

theorem mem_insertByScore {x n : RetrievedNode} {l : List RetrievedNode} :
    x ∈ insertByScore n l ↔ x = n ∨ x ∈ l := by
  induction l with
  | nil => simp [insertByScore]
  | cons m rest ih =>
    rw [insertByScore]
    by_cases h : scoreVal n ≤ scoreVal m
    · simp only [h, if_true, List.mem_cons, ih]
      tauto
    · simp [h]

theorem mem_sortByScore {x : RetrievedNode} {l : List RetrievedNode} :
    x ∈ sortByScore l ↔ x ∈ l := by
  induction l with
  | nil => simp [sortByScore]
  | cons a l ih =>
    have e : sortByScore (a :: l) = insertByScore a (sortByScore l) := rfl
    rw [e, mem_insertByScore, ih, List.mem_cons]

/-- C1: if zero retrieved candidates have a score at or above the similarity
threshold (0.15), `chat` returns the exact sentinel answer
`"Not found in your notes for {subject_id}"` with empty citations and
confidence `"Low"`, for every LLM — i.e. the result does not depend on the
language model, which is never consulted. -/
theorem chat_not_found_short_circuit (store : List RetrievedNode)
    (query subjectId : String) (history : List Msg)
    (h : ∀ n ∈ chatRetrieved store subjectId,
        passesGate similarityThreshold n = false) :
    ∀ llm, chat llm store query subjectId history =
      { answer := notFoundPhrase subjectId, citations := [],
        confidence := "Low" } := by
  intro llm
  have hv : chatValid store subjectId = [] := by
    rw [chatValid, gateValid]
    exact List.filter_eq_nil_iff.mpr (fun a ha => by simp [h a ha])
  rw [chat, hv]
  simp

/-- Witness store for C1: one stored chunk for the right subject whose score
is absent, so nothing passes the gate. -/
def demoStoreC1 : List RetrievedNode :=
  [⟨("Ohm law."), ("phys.pdf"), 1, 1, 1, ("phys"), none⟩]

/-- Witness for C1: concrete store and query, two different LLMs, identical
sentinel result. -/
theorem chat_not_found_short_circuit_witness :
    chat (fun _ => ("answer A")) demoStoreC1 ("what is current?") ("phys") [] =
      { answer := notFoundPhrase ("phys"), citations := [],
        confidence := "Low" } ∧
    chat (fun _ => ("answer B")) demoStoreC1 ("what is current?") ("phys") [] =
      { answer := notFoundPhrase ("phys"), citations := [],
        confidence := "Low" } :=
  ⟨chat_not_found_short_circuit demoStoreC1 ("what is current?") ("phys") []
      (by decide) (fun _ => ("answer A")),
   chat_not_found_short_circuit demoStoreC1 ("what is current?") ("phys") []
      (by decide) (fun _ => ("answer B"))⟩

/-- C2: retrieval in `chat` for a subject returns only candidates whose
`subject_id` metadata equals that subject, and every returned citation
carries that subject id — no chunk of another subject appears among the
retained candidates or citations. -/
theorem chat_subject_isolation (store : List RetrievedNode) (subjectId : String) :
    (∀ n ∈ chatValid store subjectId, n.subjectId = subjectId) ∧
    (∀ llm query history,
        ∀ c ∈ (chat llm store query subjectId history).citations,
          c.subjectId = subjectId) := by
  have hval : ∀ n ∈ chatValid store subjectId, n.subjectId = subjectId := by
    intro n hn
    have h1 : n ∈ chatRetrieved store subjectId := List.mem_of_mem_filter hn
    have h2 : n ∈ sortByScore
        (store.filter (fun m => decide (m.subjectId = subjectId))) :=
      List.take_subset _ _ h1
    have h3 := mem_sortByScore.mp h2
    exact of_decide_eq_true (List.mem_filter.mp h3).2
  refine ⟨hval, ?_⟩
  intro llm query history c hc
  rw [chat] at hc
  split at hc
  · simp at hc
  · split at hc
    · simp at hc
    · simp only [] at hc
      obtain ⟨n, hn, rfl⟩ := List.mem_map.mp hc
      rfl

/-- Witness store for C2: a single chunk of subject `math` with a high
score. -/
def demoStoreC2 : List RetrievedNode :=
  [⟨("Pi is irrational."), ("calc.pdf"), 1, 1, 1, ("math"), some (9 / 10)⟩]

/-- Witness for C2: the retained candidate of a concrete query belongs to the
queried subject. -/
theorem chat_subject_isolation_witness :
    (⟨("Pi is irrational."), ("calc.pdf"), 1, 1, 1, ("math"), some (9 / 10)⟩ :
      RetrievedNode).subjectId = ("math") := by
  apply (chat_subject_isolation demoStoreC2 ("math")).1
  have hret : chatRetrieved demoStoreC2 ("math") = demoStoreC2 := rfl
  have hpass : passesGate similarityThreshold
      (⟨("Pi is irrational."), ("calc.pdf"), 1, 1, 1, ("math"), some (9 / 10)⟩ :
        RetrievedNode) = true := by
    simp only [passesGate]
    rw [decide_eq_true_eq]
    norm_num [similarityThreshold]
  rw [chatValid, hret]
  simp [gateValid, demoStoreC2, List.filter, hpass]

/-- C5: the similarity gate is antitone in the threshold: for `t1 < t2`,
every candidate retained at threshold `t2` is retained at `t1` (the retained
set at the lower threshold is a superset). -/
theorem gate_antitone (cands : List RetrievedNode) (t1 t2 : Rat) (h : t1 < t2) :
    ∀ n ∈ gateValid t2 cands, n ∈ gateValid t1 cands := by
  intro n hn
  have h1 := List.mem_filter.mp hn
  refine List.mem_filter.mpr ⟨h1.1, ?_⟩
  have h2 := h1.2
  cases hs : n.score with
  | none =>
    rw [passesGate, hs] at h2
    simp at h2
  | some s =>
    rw [passesGate, hs] at h2 ⊢
    rw [decide_eq_true_eq] at h2 ⊢
    linarith

/-- Witness store for C5. -/
def demoStoreC5 : List RetrievedNode :=
  [⟨("t"), ("f.pdf"), 1, 1, 1, ("s"), some 2⟩]

/-- Witness for C5 at thresholds 0 < 1 and a node of score 2. -/
theorem gate_antitone_witness :
    (⟨("t"), ("f.pdf"), 1, 1, 1, ("s"), some 2⟩ : RetrievedNode) ∈
      gateValid 0 demoStoreC5 := by
  apply gate_antitone demoStoreC5 0 1 (by norm_num)
  have hpass : passesGate 1
      (⟨("t"), ("f.pdf"), 1, 1, 1, ("s"), some 2⟩ : RetrievedNode) = true := by
    simp only [passesGate]
    rw [decide_eq_true_eq]
    norm_num
  simp [gateValid, demoStoreC5, List.filter, hpass]

/-- C4: for every non-empty retained candidate list with average score in
[0,1], the confidence tier is exactly: ≥ 0.75 → High; ≥ 0.4 and < 0.75 →
Medium; < 0.4 → Low — the three characterisations are if-and-only-if, so the
tiers are total and mutually exclusive. -/
theorem confidence_tier_total (valid : List RetrievedNode) (_hne : valid ≠ [])
    (_h0 : 0 ≤ avgScore valid) (_h1 : avgScore valid ≤ 1) :
    (confidenceTier (avgScore valid) = "High" ↔ 3 / 4 ≤ avgScore valid) ∧
    (confidenceTier (avgScore valid) = "Medium" ↔
        2 / 5 ≤ avgScore valid ∧ avgScore valid < 3 / 4) ∧
    (confidenceTier (avgScore valid) = "Low" ↔ avgScore valid < 2 / 5) := by
  rw [confidenceTier]
  split_ifs with hH hM
  · refine ⟨by simp [hH], ?_, ?_⟩
    · constructor
      · intro hEq
        exact absurd hEq (by decide)
      · intro hEq
        linarith [hEq.2]
    · constructor
      · intro hEq
        exact absurd hEq (by decide)
      · intro hEq
        linarith
  · refine ⟨?_, ?_, ?_⟩
    · constructor
      · intro hEq
        exact absurd hEq (by decide)
      · intro hEq
        exact absurd hEq hH
    · exact ⟨fun _ => ⟨hM, lt_of_not_le hH⟩, fun _ => rfl⟩
    · constructor
      · intro hEq
        exact absurd hEq (by decide)
      · intro hEq
        linarith
  · refine ⟨?_, ?_, ?_⟩
    · constructor
      · intro hEq
        exact absurd hEq (by decide)
      · intro hEq
        exact absurd hEq hH
    · constructor
      · intro hEq
        exact absurd hEq (by decide)
      · intro hEq
        exact absurd hEq.1 hM
    · exact ⟨fun _ => lt_of_not_le hM, fun _ => rfl⟩

/-- Witness list for C4: one retained node of score 1/2. -/
def demoValidC4 : List RetrievedNode :=
  [⟨("t"), ("f.pdf"), 1, 1, 1, ("s"), some (1 / 2)⟩]

/-- Witness for C4 at average score 1/2 (Medium). -/
theorem confidence_tier_total_witness :
    (confidenceTier (avgScore demoValidC4) = "High" ↔
        3 / 4 ≤ avgScore demoValidC4) ∧
    (confidenceTier (avgScore demoValidC4) = "Medium" ↔
        2 / 5 ≤ avgScore demoValidC4 ∧ avgScore demoValidC4 < 3 / 4) ∧
    (confidenceTier (avgScore demoValidC4) = "Low" ↔
        avgScore demoValidC4 < 2 / 5) := by
  have havg : avgScore demoValidC4 = 1 / 2 := by
    norm_num [avgScore, demoValidC4, scoreVal]
  exact confidence_tier_total demoValidC4 (by simp [demoValidC4])
    (by rw [havg]; norm_num) (by rw [havg]; norm_num)

/-- C8: whenever `chat` reaches the language model and the generated answer
contains the literal fallback phrase (case-insensitively), the result is
downgraded to exactly the sentinel answer with empty citations and confidence
`"Low"`. -/
theorem chat_llm_downgrade (llm : List ChatMsg → String)
    (store : List RetrievedNode) (query subjectId : String) (history : List Msg)
    (hvalid : chatValid store subjectId ≠ [])
    (hans : containsCI (notFoundPhrase subjectId)
        (llm (chatMessages store subjectId query history)) = true) :
    chat llm store query subjectId history =
      { answer := notFoundPhrase subjectId, citations := [],
        confidence := "Low" } := by
  rw [chat, if_neg (by simpa [List.isEmpty_iff] using hvalid), if_pos hans]

/-- Witness store for C8. -/
def demoStoreC8 : List RetrievedNode :=
  [⟨("Energy is conserved."), ("phys.pdf"), 1, 1, 2, ("phys"), some 1⟩]

/-- Witness for C8: an LLM that paraphrases the fallback phrase in different
capitalisation gets downgraded to the canonical sentinel. -/
theorem chat_llm_downgrade_witness :
    chat (fun _ => ("NOT FOUND in your notes for phys today.")) demoStoreC8
        ("what?") ("phys") [] =
      { answer := notFoundPhrase ("phys"), citations := [],
        confidence := "Low" } := by
  have hvalid : chatValid demoStoreC8 ("phys") = demoStoreC8 := by
    have hret : chatRetrieved demoStoreC8 ("phys") = demoStoreC8 := rfl
    have hpass : passesGate similarityThreshold
        (⟨("Energy is conserved."), ("phys.pdf"), 1, 1, 2, ("phys"), some 1⟩ :
          RetrievedNode) = true := by
      simp only [passesGate]
      rw [decide_eq_true_eq]
      norm_num [similarityThreshold]
    rw [chatValid, hret]
    simp [gateValid, demoStoreC8, List.filter, hpass]
  exact chat_llm_downgrade (fun _ => ("NOT FOUND in your notes for phys today."))
    demoStoreC8 ("what?") ("phys") []
    (by rw [hvalid]; simp [demoStoreC8]) (by decide)

/-! ## Paragraph-aware chunking (`RAGEngine.ingest_pdf` / `ingest_txt`)

Both ingestion paths run the same per-page paragraph loop: a paragraph is a
maximal run of non-blank lines (tracking 1-based start/end lines); every
non-empty paragraph is handed to the `SentenceSplitter`, and every resulting
chunk inherits the paragraph's `line_start`/`line_end`. -/

/-- Python `line.strip() == ""`. -/
def blankLine (l : List Char) : Bool := (pyStrip l).isEmpty

/-- Python `page_text.split("\n")`. -/
def splitNl : List Char → List (List Char)
  | [] => [[]]
  | c :: rest =>
      if c = '\n' then [] :: splitNl rest
      else
        match splitNl rest with
        | [] => [[c]]
        | l :: ls => (c :: l) :: ls

/-- One paragraph: its lines (`"\n".join(current_lines)` is `joinLines lines`)
and 1-based inclusive line range within the page. -/
structure Paragraph where
  lines : List (List Char)
  lineStart : Nat
  lineEnd : Nat
deriving DecidableEq

/-- Python `"\n".join(lines)`. -/
def joinLines : List (List Char) → List Char
  | [] => []
  | [l] => l
  | l :: rest => l ++ '\n' :: joinLines rest

/-- The paragraph loop of `ingest_pdf`/`ingest_txt`: iterate over the page's
lines at 0-based index `idx` with the pending paragraph `cur` starting at
1-based line `curStart`; a blank line flushes `cur`, a non-blank line extends
it (resetting `curStart` when `cur` is empty); the trailing `cur` is flushed
at the end. -/
def splitParas : List (List Char) → Nat → List (List Char) → Nat → List Paragraph
  | [], _, cur, curStart =>
      if cur.isEmpty then []
      else [⟨cur, curStart, curStart + cur.length - 1⟩]
  | line :: rest, idx, cur, curStart =>
      if blankLine line then
        (if cur.isEmpty then []
         else [⟨cur, curStart, curStart + cur.length - 1⟩])
          ++ splitParas rest (idx + 1) [] (idx + 2)
      else
        if cur.isEmpty then splitParas rest (idx + 1) [line] (idx + 1)
        else splitParas rest (idx + 1) (cur ++ [line]) curStart

/-- The paragraphs of one page of raw text. -/
def pageParagraphs (page : List Char) : List Paragraph :=
  splitParas (splitNl page) 0 [] 1

/-- Modelled from the spec: the secondary bounded-size splitter (the LlamaIndex
`SentenceSplitter(chunk_size=256, chunk_overlap=40)`, an external library): a
paragraph within the target size is a single chunk; a longer one is emitted
as windows of the target size advancing by size − overlap, so it "may emit
multiple chunks per paragraph if it exceeds the target size". The fuel
argument (initialised to the text length) only forces structural termination
and never runs out, since each step consumes 216 characters. -/
def chunkSplitAux : Nat → List Char → List (List Char)
  | 0, t => [t]
  | fuel + 1, t =>
      if t.length ≤ 256 then [t]
      else t.take 256 :: chunkSplitAux fuel (t.drop 216)

/-- Split one paragraph's text into bounded-size chunks. -/
def chunkSplit (t : List Char) : List (List Char) := chunkSplitAux t.length t

/-- An emitted chunk with its provenance metadata. -/
structure Chunk where
  text : List Char
  fileName : String
  pageNumber : Nat
  subjectId : String
  lineStart : Nat
  lineEnd : Nat
deriving DecidableEq

/-- The chunks emitted for one paragraph: skip when the stripped paragraph
text is empty, otherwise split and stamp every chunk with the paragraph's
line range and the page metadata. -/
def paraChunks (fileName : String) (pageNumber : Nat) (subjectId : String)
    (p : Paragraph) : List Chunk :=
  if (pyStrip (joinLines p.lines)).isEmpty then []
  else (chunkSplit (pyStrip (joinLines p.lines))).map
    (fun c => ⟨c, fileName, pageNumber, subjectId, p.lineStart, p.lineEnd⟩)

/-- All chunks emitted for one page of raw text. -/
def pageChunks (fileName : String) (pageNumber : Nat) (subjectId : String)
    (page : List Char) : List Chunk :=
  (pageParagraphs page).flatMap (paraChunks fileName pageNumber subjectId)

/-- Whether a chunk's inclusive line range covers 1-based line `n`. -/
def coversLine (c : Chunk) (n : Nat) : Bool :=
  decide (c.lineStart ≤ n ∧ n ≤ c.lineEnd)

/-- How many chunks cover line `n`. -/
def chunkCoverCount (chunks : List Chunk) (n : Nat) : Nat :=
  chunks.countP (fun c => coversLine c n)

/-- Whether a paragraph's line range covers line `n`. -/
def paraCovers (p : Paragraph) (n : Nat) : Bool :=
  decide (p.lineStart ≤ n ∧ n ≤ p.lineEnd)

/-- How many paragraphs cover line `n`. -/
def paraCoverCount (ps : List Paragraph) (n : Nat) : Nat :=
  ps.countP (fun p => paraCovers p n)

/-- The number of lines of a page (`len(page_text.split("\n"))`). -/
def numLines (page : List Char) : Nat := (splitNl page).length

/-- Whether 1-based line `n` of the page is blank. -/
def lineIsBlank (page : List Char) (n : Nat) : Bool :=
  blankLine ((splitNl page).getD (n - 1) [])

/-- A one-page document consisting of a single 300-character line: its one
paragraph exceeds the 256-character chunk size, so it is split into two
chunks that share the same line range. -/
def demoLongPage : List Char := List.replicate 300 ('a')

set_option maxRecDepth 8192 in
/-- C3 counterexample: on `demoLongPage`, line 1 is non-blank, yet it is
covered by the line ranges of 2 chunks, not exactly once — chunks of the same
over-long paragraph duplicate the paragraph's line range. -/
theorem chunk_coverage_cex :
    lineIsBlank demoLongPage 1 = false ∧ numLines demoLongPage = 1 ∧
    chunkCoverCount (pageChunks ("notes.txt") 1 ("geo") demoLongPage) 1 = 2 := by
  decide

/-! ### Paragraph coverage -/

/-- Contribution of the not-yet-processed lines `rest` (sitting at 0-based
page offset `k`) to the coverage count of line `n`: 1 when `n` falls in
`rest` on a non-blank line, else 0. -/
def hitAt (rest : List (List Char)) (k n : Nat) : Nat :=
  if k + 1 ≤ n ∧ n ≤ k + rest.length ∧
      blankLine (rest.getD (n - (k + 1)) []) = false then 1 else 0

theorem hitAt_nil (k n : Nat) : hitAt [] k n = 0 := by
  rw [hitAt, if_neg]
  rintro ⟨ha, hb, -⟩
  simp only [List.length_nil, Nat.add_zero] at hb
  omega

theorem hitAt_zero_of_le (rest : List (List Char)) (k n : Nat) (h : n ≤ k) :
    hitAt rest k n = 0 := by
  rw [hitAt, if_neg]
  rintro ⟨ha, -, -⟩
  omega

theorem hitAt_cons_eq (line : List Char) (rest : List (List Char)) (k : Nat) :
    hitAt (line :: rest) k (k + 1) = if blankLine line = false then 1 else 0 := by
  rw [hitAt, Nat.sub_self, List.getD_cons_zero]
  by_cases hx : blankLine line = false
  · rw [if_pos ⟨by omega, by simp only [List.length_cons]; omega, hx⟩, if_pos hx]
  · rw [if_neg (by rintro ⟨-, -, h3⟩; exact hx h3), if_neg hx]

theorem hitAt_cons_ne (line : List Char) (rest : List (List Char)) (k n : Nat)
    (hn1 : n ≠ k + 1) :
    hitAt (line :: rest) k n = hitAt rest (k + 1) n := by
  rcases Nat.lt_or_ge n (k + 1) with hlt | hge
  · rw [hitAt_zero_of_le _ _ _ (by omega), hitAt_zero_of_le _ _ _ (by omega)]
  · have hge2 : k + 2 ≤ n := by omega
    rw [hitAt, hitAt]
    have e : n - (k + 1) = (n - (k + 1 + 1)) + 1 := by omega
    rw [e, List.getD_cons_succ]
    have el : (line :: rest).length = rest.length + 1 := by simp
    rw [el]
    by_cases hx : blankLine (rest.getD (n - (k + 1 + 1)) []) = false
    · simp only [hx, eq_self_iff_true, and_true]
      split_ifs <;> omega
    · have hxt : blankLine (rest.getD (n - (k + 1 + 1)) []) = true := by
        revert hx
        cases blankLine (rest.getD (n - (k + 1 + 1)) []) <;> simp
      simp only [hxt]
      simp

theorem paraCoverCount_nil (n : Nat) : paraCoverCount [] n = 0 := rfl

theorem paraCoverCount_append (a b : List Paragraph) (n : Nat) :
    paraCoverCount (a ++ b) n = paraCoverCount a n + paraCoverCount b n := by
  simp [paraCoverCount, List.countP_append]

theorem paraCoverCount_flush (lines : List (List Char)) (s e n : Nat) :
    paraCoverCount [⟨lines, s, e⟩] n = if s ≤ n ∧ n ≤ e then 1 else 0 := by
  simp [paraCoverCount, paraCovers, List.countP_cons]

/-- The coverage count of line `n` over the paragraphs produced by the
paragraph loop: one hit from the pending paragraph's range when `n` lies in
it, plus one hit from the remaining lines when `n` falls there on a non-blank
line. -/
theorem splitParas_count (n : Nat) :
    ∀ (rest : List (List Char)) (k : Nat) (cur : List (List Char)) (curStart : Nat),
      (cur ≠ [] → curStart + cur.length = k + 1 ∧ 1 ≤ curStart) →
      paraCoverCount (splitParas rest k cur curStart) n =
        (if cur ≠ [] ∧ curStart ≤ n ∧ n ≤ k then 1 else 0) + hitAt rest k n := by
  intro rest
  induction rest with
  | nil =>
    intro k cur curStart hcur
    rw [hitAt_nil]
    by_cases hc : cur.isEmpty
    · have hce : cur = [] := List.isEmpty_iff.mp hc
      subst hce
      simp [splitParas, paraCoverCount]
    · have hcne : cur ≠ [] := fun hx => by simp [hx] at hc
      obtain ⟨hcs, hc1⟩ := hcur hcne
      have hlen : 1 ≤ cur.length := List.length_pos.mpr hcne
      simp only [splitParas]
      rw [if_neg hc, paraCoverCount_flush]
      simp only [hcne, ne_eq, not_false_eq_true, true_and]
      split_ifs <;> omega
  | cons line rest' ih =>
    intro k cur curStart hcur
    simp only [splitParas]
    by_cases hb : blankLine line
    · rw [if_pos hb]
      have hfb : (if blankLine line = false then 1 else 0) = 0 := by
        rw [hb]
        simp
      by_cases hc : cur.isEmpty
      · have hce : cur = [] := List.isEmpty_iff.mp hc
        subst hce
        rw [if_pos hc, List.nil_append,
          ih (k + 1) [] (k + 2) (fun hx => absurd rfl hx)]
        by_cases hn1 : n = k + 1
        · subst hn1
          rw [hitAt_cons_eq, hfb, hitAt_zero_of_le _ _ _ (le_refl _)]
          simp
        · rw [hitAt_cons_ne _ _ _ _ hn1]
          simp
      · have hcne : cur ≠ [] := fun hx => by simp [hx] at hc
        obtain ⟨hcs, hc1⟩ := hcur hcne
        have hlen : 1 ≤ cur.length := List.length_pos.mpr hcne
        rw [if_neg hc, paraCoverCount_append, paraCoverCount_flush,
          ih (k + 1) [] (k + 2) (fun hx => absurd rfl hx)]
        by_cases hn1 : n = k + 1
        · subst hn1
          rw [hitAt_cons_eq, hfb, hitAt_zero_of_le _ _ _ (le_refl _)]
          simp only [ne_eq, eq_self_iff_true, not_true_eq_false, false_and,
            if_false, hcne, not_false_eq_true, true_and, add_zero, zero_add]
          split_ifs <;> omega
        · rw [hitAt_cons_ne _ _ _ _ hn1]
          simp only [hcne, ne_eq, not_false_eq_true, true_and]
          split_ifs <;> omega
    · rw [if_neg hb]
      have hbf : blankLine line = false := by
        revert hb
        cases blankLine line <;> simp
      have hfb : (if blankLine line = false then 1 else 0) = 1 := if_pos hbf
      by_cases hc : cur.isEmpty
      · have hce : cur = [] := List.isEmpty_iff.mp hc
        subst hce
        rw [if_pos hc,
          ih (k + 1) [line] (k + 1) (fun _ => ⟨by simp, by omega⟩)]
        by_cases hn1 : n = k + 1
        · subst hn1
          rw [hitAt_cons_eq, hfb, hitAt_zero_of_le _ _ _ (le_refl _)]
          simp
        · rw [hitAt_cons_ne _ _ _ _ hn1]
          have hne : ¬((([line] : List (List Char)) ≠ []) ∧ k + 1 ≤ n ∧ n ≤ k + 1) := by
            rintro ⟨-, ha, hb2⟩
            exact hn1 (by omega)
          rw [if_neg hne]
          simp
      · have hcne : cur ≠ [] := fun hx => by simp [hx] at hc
        obtain ⟨hcs, hc1⟩ := hcur hcne
        have hlen : 1 ≤ cur.length := List.length_pos.mpr hcne
        rw [if_neg hc,
          ih (k + 1) (cur ++ [line]) curStart
            (fun _ => ⟨by simp only [List.length_append, List.length_cons,
              List.length_nil]; omega, hc1⟩)]
        have hne2 : cur ++ [line] ≠ [] := by simp
        by_cases hn1 : n = k + 1
        · subst hn1
          rw [hitAt_cons_eq, hfb, hitAt_zero_of_le _ _ _ (le_refl _)]
          simp only [hne2, hcne, ne_eq, not_false_eq_true, true_and]
          split_ifs <;> omega
        · rw [hitAt_cons_ne _ _ _ _ hn1]
          simp only [hne2, hcne, ne_eq, not_false_eq_true, true_and]
          split_ifs <;> omega

/-- Every paragraph the loop produces has non-empty all-non-blank lines, and
its inclusive range length equals its line count. -/
theorem splitParas_mem :
    ∀ (rest : List (List Char)) (k : Nat) (cur : List (List Char)) (curStart : Nat),
      (∀ l ∈ cur, blankLine l = false) →
      ∀ p ∈ splitParas rest k cur curStart,
        p.lines ≠ [] ∧ p.lineEnd + 1 = p.lineStart + p.lines.length ∧
          ∀ l ∈ p.lines, blankLine l = false := by
  intro rest
  induction rest with
  | nil =>
    intro k cur curStart hnb p hp
    simp only [splitParas] at hp
    split at hp
    · simp at hp
    · rename_i hx
      simp only [List.mem_singleton] at hp
      subst hp
      have hcne : cur ≠ [] := fun he => by simp [he] at hx
      have hlen : 1 ≤ cur.length := List.length_pos.mpr hcne
      exact ⟨hcne, by dsimp only; omega, hnb⟩
  | cons line rest' ih =>
    intro k cur curStart hnb p hp
    simp only [splitParas] at hp
    by_cases hb : blankLine line
    · rw [if_pos hb] at hp
      rcases List.mem_append.mp hp with hfl | hrec
      · split at hfl
        · simp at hfl
        · rename_i hx
          simp only [List.mem_singleton] at hfl
          subst hfl
          have hcne : cur ≠ [] := fun he => by simp [he] at hx
          have hlen : 1 ≤ cur.length := List.length_pos.mpr hcne
          exact ⟨hcne, by dsimp only; omega, hnb⟩
      · exact ih (k + 1) [] (k + 2) (by intro l hl; simp at hl) p hrec
    · rw [if_neg hb] at hp
      have hbf : blankLine line = false := by
        revert hb
        cases blankLine line <;> simp
      split at hp
      · refine ih (k + 1) [line] (k + 1) ?_ p hp
        intro l hl
        rw [List.mem_singleton] at hl
        subst hl
        exact hbf
      · refine ih (k + 1) (cur ++ [line]) curStart ?_ p hp
        intro l hl
        rcases List.mem_append.mp hl with h | h
        · exact hnb l h
        · rw [List.mem_singleton] at h
          subst h
          exact hbf

/-- A string all of whose characters are whitespace strips to empty. -/
theorem pyStrip_eq_nil_of_all_space (l : List Char)
    (h : ∀ c ∈ l, pySpace c = true) : pyStrip l = [] := by
  have hr : pyStripR l = [] := by
    rw [pyStripR]
    have : l.reverse.dropWhile pySpace = [] := by
      rw [List.dropWhile_eq_nil_iff]
      intro x hx
      exact h x (List.mem_reverse.mp hx)
    rw [this, List.reverse_nil]
  rw [pyStrip, hr]
  rfl

/-- Conversely, a string that strips to empty has only whitespace. -/
theorem all_space_of_pyStrip_eq_nil (l : List Char) (h : pyStrip l = []) :
    ∀ c ∈ l, pySpace c = true := by
  have h2 : nonSpace l = [] := by
    rw [← nonSpace_pyStrip, h]
    rfl
  intro c hc
  have := List.filter_eq_nil_iff.mp h2 c hc
  revert this
  cases pySpace c <;> simp

/-- Characters of the first line occur in the joined paragraph text. -/
theorem mem_joinLines_head {c : Char} {l : List Char} (lines : List (List Char))
    (hc : c ∈ l) : c ∈ joinLines (l :: lines) := by
  cases lines with
  | nil => exact hc
  | cons l2 rest => exact List.mem_append_left _ hc

/-- A non-empty paragraph of non-blank lines has non-blank joined text, so it
is not skipped by the `if not para_text: continue` guard. -/
theorem pyStrip_joinLines_ne_nil (lines : List (List Char)) (hne : lines ≠ [])
    (hnb : ∀ l ∈ lines, blankLine l = false) :
    (pyStrip (joinLines lines)).isEmpty = false := by
  obtain ⟨l0, rest, rfl⟩ := List.exists_cons_of_ne_nil hne
  have hb0 : blankLine l0 = false := hnb l0 (List.mem_cons_self _ _)
  have hs0 : pyStrip l0 ≠ [] := by
    intro he
    rw [blankLine, he] at hb0
    simp at hb0
  have hex : ∃ c ∈ l0, pySpace c = false := by
    by_contra hall
    push_neg at hall
    refine hs0 (pyStrip_eq_nil_of_all_space l0 ?_)
    intro c hc
    have := hall c hc
    revert this
    cases pySpace c <;> simp
  obtain ⟨c, hcl, hcs⟩ := hex
  have hcj : c ∈ joinLines (l0 :: rest) := mem_joinLines_head rest hcl
  have hj : pyStrip (joinLines (l0 :: rest)) ≠ [] := by
    intro he
    have hsp := all_space_of_pyStrip_eq_nil _ he c hcj
    rw [hcs] at hsp
    exact Bool.false_ne_true hsp
  revert hj
  cases pyStrip (joinLines (l0 :: rest)) <;> simp

theorem chunkSplitAux_ne_nil (fuel : Nat) (t : List Char) :
    chunkSplitAux fuel t ≠ [] := by
  cases fuel with
  | zero => simp [chunkSplitAux]
  | succ f =>
    rw [chunkSplitAux]
    split <;> simp

theorem chunkSplit_ne_nil (t : List Char) : chunkSplit t ≠ [] :=
  chunkSplitAux_ne_nil t.length t

theorem paraChunks_fields {c : Chunk} {p : Paragraph} (fileName : String)
    (pageNumber : Nat) (subjectId : String)
    (hc : c ∈ paraChunks fileName pageNumber subjectId p) :
    c.lineStart = p.lineStart ∧ c.lineEnd = p.lineEnd := by
  rw [paraChunks] at hc
  split at hc
  · simp at hc
  · obtain ⟨t, ht, rfl⟩ := List.mem_map.mp hc
    exact ⟨rfl, rfl⟩

theorem paraChunks_ne_nil (fileName : String) (pageNumber : Nat)
    (subjectId : String) (p : Paragraph) (hne : p.lines ≠ [])
    (hnb : ∀ l ∈ p.lines, blankLine l = false) :
    paraChunks fileName pageNumber subjectId p ≠ [] := by
  have hb := pyStrip_joinLines_ne_nil p.lines hne hnb
  have hcond : ¬((pyStrip (joinLines p.lines)).isEmpty = true) := by
    rw [hb]
    simp
  rw [paraChunks, if_neg hcond]
  intro he
  rw [List.map_eq_nil_iff] at he
  exact chunkSplit_ne_nil _ he

/-- The paragraph ranges cover each in-range line exactly once when it is
non-blank, and never when it is blank. -/
theorem pageParagraphs_count (page : List Char) (n : Nat) (h1 : 1 ≤ n)
    (h2 : n ≤ numLines page) :
    paraCoverCount (pageParagraphs page) n =
      if lineIsBlank page n = false then 1 else 0 := by
  rw [numLines] at h2
  rw [pageParagraphs,
    splitParas_count n (splitNl page) 0 [] 1 (fun hx => absurd rfl hx), hitAt,
    lineIsBlank]
  simp only [Nat.zero_add]
  have hfalse : ¬((([] : List (List Char)) ≠ []) ∧ 1 ≤ n ∧ n ≤ 0) := by simp
  rw [if_neg hfalse, Nat.zero_add]
  by_cases hbl : blankLine ((splitNl page).getD (n - 1) []) = false
  · rw [if_pos ⟨h1, h2, hbl⟩, if_pos hbl]
  · rw [if_neg (fun hcond => hbl hcond.2.2), if_neg hbl]

/-- C3 (amended): every emitted chunk satisfies `line_start ≤ line_end` and
carries exactly its paragraph's line range; blank lines belong to no
paragraph and no chunk; every non-blank line is covered by exactly one
paragraph range and by at least one chunk — but a line may be covered by more
than one chunk, since all chunks of an over-long paragraph inherit the same
range (the "exactly once" of the original claim holds at paragraph
granularity, not chunk granularity). -/
theorem chunk_line_coverage (page : List Char) (fileName : String)
    (pageNumber : Nat) (subjectId : String) (n : Nat)
    (h1 : 1 ≤ n) (h2 : n ≤ numLines page) :
    (∀ c ∈ pageChunks fileName pageNumber subjectId page,
        c.lineStart ≤ c.lineEnd) ∧
    (∀ c ∈ pageChunks fileName pageNumber subjectId page,
        ∃ p ∈ pageParagraphs page,
          c.lineStart = p.lineStart ∧ c.lineEnd = p.lineEnd) ∧
    (lineIsBlank page n = true →
        paraCoverCount (pageParagraphs page) n = 0 ∧
        chunkCoverCount (pageChunks fileName pageNumber subjectId page) n = 0) ∧
    (lineIsBlank page n = false →
        paraCoverCount (pageParagraphs page) n = 1 ∧
        1 ≤ chunkCoverCount (pageChunks fileName pageNumber subjectId page) n) := by
  have hparas := splitParas_mem (splitNl page) 0 [] 1 (by intro l hl; simp at hl)
  have hcount := pageParagraphs_count page n h1 h2
  have hchunkp : ∀ c ∈ pageChunks fileName pageNumber subjectId page,
      ∃ p ∈ pageParagraphs page,
        c.lineStart = p.lineStart ∧ c.lineEnd = p.lineEnd := by
    intro c hc
    obtain ⟨p, hp, hcp⟩ := List.mem_flatMap.mp hc
    exact ⟨p, hp, paraChunks_fields fileName pageNumber subjectId hcp⟩
  refine ⟨?_, hchunkp, ?_, ?_⟩
  · intro c hc
    obtain ⟨p, hp, hf1, hf2⟩ := hchunkp c hc
    have hpm := hparas p hp
    have hlen : 1 ≤ p.lines.length := List.length_pos.mpr hpm.1
    have he := hpm.2.1
    rw [hf1, hf2]
    omega
  · intro hbl
    have hp0 : paraCoverCount (pageParagraphs page) n = 0 := by
      rw [hcount, if_neg]
      rw [hbl]
      simp
    refine ⟨hp0, ?_⟩
    rw [chunkCoverCount, List.countP_eq_zero]
    intro c hc
    obtain ⟨p, hp, hf1, hf2⟩ := hchunkp c hc
    intro hcov
    rw [coversLine, decide_eq_true_eq, hf1, hf2] at hcov
    have hpcov : paraCovers p n = true := by
      rw [paraCovers, decide_eq_true_eq]
      exact hcov
    have hpos : 0 < paraCoverCount (pageParagraphs page) n := by
      rw [paraCoverCount, List.countP_pos_iff]
      exact ⟨p, hp, hpcov⟩
    omega
  · intro hbl
    have hp1 : paraCoverCount (pageParagraphs page) n = 1 := by
      rw [hcount, if_pos hbl]
    refine ⟨hp1, ?_⟩
    have hpos : 0 < paraCoverCount (pageParagraphs page) n := by omega
    rw [paraCoverCount, List.countP_pos_iff] at hpos
    obtain ⟨p, hp, hpcov⟩ := hpos
    have hpm := hparas p hp
    have hnec := paraChunks_ne_nil fileName pageNumber subjectId p hpm.1 hpm.2.2
    obtain ⟨c, hc⟩ := List.exists_mem_of_ne_nil _ hnec
    have hfields := paraChunks_fields fileName pageNumber subjectId hc
    have hcmem : c ∈ pageChunks fileName pageNumber subjectId page :=
      List.mem_flatMap.mpr ⟨p, hp, hc⟩
    have hccov : coversLine c n = true := by
      rw [coversLine, decide_eq_true_eq, hfields.1, hfields.2]
      rw [paraCovers, decide_eq_true_eq] at hpcov
      exact hpcov
    have hcpos : 0 < chunkCoverCount (pageChunks fileName pageNumber subjectId page) n := by
      rw [chunkCoverCount, List.countP_pos_iff]
      exact ⟨c, hcmem, hccov⟩
    omega

/-- Witness for C3 (amended) at the concrete two-paragraph page
`"ab\n\ncd"` and line 1. -/
theorem chunk_line_coverage_witness :
    (∀ c ∈ pageChunks ("notes.txt") 1 ("geo") (("ab\n\ncd").toList),
        c.lineStart ≤ c.lineEnd) ∧
    (∀ c ∈ pageChunks ("notes.txt") 1 ("geo") (("ab\n\ncd").toList),
        ∃ p ∈ pageParagraphs (("ab\n\ncd").toList),
          c.lineStart = p.lineStart ∧ c.lineEnd = p.lineEnd) ∧
    (lineIsBlank (("ab\n\ncd").toList) 1 = true →
        paraCoverCount (pageParagraphs (("ab\n\ncd").toList)) 1 = 0 ∧
        chunkCoverCount
          (pageChunks ("notes.txt") 1 ("geo") (("ab\n\ncd").toList)) 1 = 0) ∧
    (lineIsBlank (("ab\n\ncd").toList) 1 = false →
        paraCoverCount (pageParagraphs (("ab\n\ncd").toList)) 1 = 1 ∧
        1 ≤ chunkCoverCount
          (pageChunks ("notes.txt") 1 ("geo") (("ab\n\ncd").toList)) 1) :=
  chunk_line_coverage (("ab\n\ncd").toList) ("notes.txt") 1 ("geo") 1
    (by decide) (by decide)

end AskMyNotes
